import Mathlib

/-!
Shallow embedding of the scoring-to-decision pipeline of whatlang-rs: the
confidence estimator of `src/detect.rs` and the Cyrillic alphabet scorer of
`src/dev/alphabet/cyrillic.rs`.  Rust `f64` values are modelled as exact
rationals (`ℚ`).  The non-finite `f64` values (NaN, `+inf`) that the code can
produce by dividing by zero are modelled explicitly at the two places where
they can arise, as noted in the doc comments of the definitions involved.
-/

/-- The language enumeration (`Lang`).  The full enumeration is external to
the core under study; this embedding carries the six Cyrillic languages used
by the alphabet scorer together with two further members (`Eng`, `Epo`) so
that the default (panicking) arm of `get_lang_chars` is a live branch, as it
is in the code. -/
inductive Lang where
  | Rus | Ukr | Bul | Bel | Srp | Mkd | Eng | Epo
  deriving DecidableEq, Repr

/-- Core of `detect_lang_based_on_script` (src/detect.rs, lines 47-100): the
confidence estimator applied to the `Outcome` produced by the external scorer,
that is, to its `normalized_scores` list and its `trigram_count`.  Scores are
modelled as exact rationals, and the Rust constants `500.0`, `12.0`, `0.05`
appear as `500`, `12`, `1 / 20`.  When `trigram_count = 0` the Rust code
computes `confident_rate = 12.0 / 0.0 + 0.05 = +inf`; then
`rate > confident_rate` is false and `rate / confident_rate = 0` because
`rate` is finite (`score2 != 0` holds in that branch), so the code returns
confidence `0` — that IEEE behaviour is written out as an explicit branch
below. -/
def detect_lang_based_on_script (normalized_scores : List (Lang × ℚ))
    (trigram_count : Nat) : Option (Lang × ℚ) :=
  match normalized_scores with
  | [] => none
  | [pair] => some pair
  | (lang1, score1) :: (_lang2, score2) :: _ =>
    if score1 = 0 then
      none
    else if score2 = 0 then
      let confidence : ℚ := score1 / 500
      some (lang1, if confidence > 1 then 1 else confidence)
    else
      let rate : ℚ := (score1 - score2) / score2
      if trigram_count = 0 then
        some (lang1, 0)
      else
        let confident_rate : ℚ := 12 / (trigram_count : ℚ) + 1 / 20
        some (lang1, if rate > confident_rate then 1 else rate / confident_rate)

/-- The sortedness invariant of an `Outcome`: a score list is sorted
descending by score (each entry's score is at least the next one's). -/
def sorted_desc : List (Lang × ℚ) → Bool
  | [] => true
  | [_] => true
  | a :: b :: t => decide (b.2 ≤ a.2) && sorted_desc (b :: t)

/-- Modelled from the spec: the helper `is_stop_char` lives in
`src/utils.rs`, which is not among the given sources; per the spec, stop
characters are whitespace, punctuation and digits — characters carrying no
alphabetic signal. -/
def is_stop_char (ch : Char) : Bool :=
  ch.isWhitespace || ch.isDigit || ".,:;!?()".toList.contains ch

def BUL : String :=
  "АаБбВвГгДдЕеЖжЗзИиЙйКкЛлМмНнОоПпРрСсТтУуФфХхЦцЧчШшЩщЪъЬьЮюЯя"

def RUS : String :=
  "АаБбВвГгДдЕеЁёЖжЗзИиЙйКкЛлМмНнОоПпРрСсТтУуФфХхЦцЧчШшЩщЪъЫыЬьЭэЮюЯя"

def UKR : String :=
  "АаБбВвГгҐґДдЕеЄєЖжЗзИиІіЇїЙйКкЛлМмНнОоПпРрСсТтУуФфХхЦцЧчШшЩщЬьЮюЯя"

def BEL : String :=
  "АаБбВвГгДдЕеЁёЖжЗзІіЙйКкЛлМмНнОоПпРрСсТтУуЎўФфХхЦцЧчШшЫыЬьЭэЮюЯя"

def SRP : String :=
  "АаБбВвГгДдЂђЕеЖжЗзИиЈјКкЛлЉљМмНнЊњОоПпРрСсТтЋћУуФфХхЦцЧчЏџШш"

def MKD : String :=
  "АаБбВвГгДдЃѓЕеЖжЗзЅѕИиЈјКкЛлЉљМмНнЊњОоПпРрСсТтЌќУуФфХхЦцЧчЏџШш"

/-- `get_lang_chars` of src/src/dev/alphabet/cyrillic.rs; the `panic!` arm
for a language without an alphabet is modelled as `none`. -/
def get_lang_chars (lang : Lang) : Option (List Char) :=
  match lang with
  | Lang.Rus => some RUS.toList
  | Lang.Ukr => some UKR.toList
  | Lang.Bul => some BUL.toList
  | Lang.Bel => some BEL.toList
  | Lang.Srp => some SRP.toList
  | Lang.Mkd => some MKD.toList
  | _ => none

/-- The fixed candidate list hard-coded in `alphabet_calculate_scores`, in
source order (each entry starts with raw score `0i32`). -/
def candidate_langs : List Lang :=
  [Lang.Rus, Lang.Ukr, Lang.Bul, Lang.Bel, Lang.Mkd, Lang.Srp]

/-- The inner loop of `alphabet_calculate_scores` for one language: starting
from the initial raw score 0, every non-stop character of the text adds 1 if
it belongs to the language's alphabet and subtracts 1 otherwise. -/
def alphabet_raw_score (alphabet : List Char) (text : List Char) : Int :=
  text.foldl
    (fun score ch =>
      if is_stop_char ch then score
      else if alphabet.contains ch then score + 1 else score - 1)
    0

/-- The `Outcome` shape emitted by the alphabet scorer (module
src/src/dev/alphabet): maximum achievable raw score, clamped raw scores
sorted descending, and the parallel normalized scores.  A normalized score is
`raw_score as f64 / max_raw_score as f64`; the non-finite value this division
produces when `max_raw_score = 0` (NaN, since the clamped numerator is then 0
as well) is modelled as `none`. -/
structure Outcome where
  max_raw_score : Nat
  raw_scores : List (Lang × Nat)
  normalized_scores : List (Lang × Option ℚ)
  deriving DecidableEq, Repr

/-- Models `raw_score as f64 / max_raw_score as f64`: `none` stands for the
non-finite result of a division by zero. -/
def normalize_raw (raw max_raw_score : Nat) : Option ℚ :=
  if max_raw_score = 0 then none
  else some ((raw : ℚ) / (max_raw_score : ℚ))

/-- The per-language signed raw scores of `alphabet_calculate_scores`, in
source order; `none` models the `panic!` of `get_lang_chars` for a language
without an alphabet. -/
def alphabet_raw_scores (text : List Char) : Option (List (Lang × Int)) :=
  candidate_langs.mapM
    (fun lang => (get_lang_chars lang).map
      (fun alphabet => (lang, alphabet_raw_score alphabet text)))

/-- `alphabet_calculate_scores` of src/src/dev/alphabet/cyrillic.rs.
`max_raw_score` counts the non-stop characters of the text; the per-language
signed raw scores are sorted descending by score — Rust's `sort_by` with
comparator `b.1.cmp(&a.1)` is a stable descending sort, and a stable sort by
a fixed key order is unique, so it is embedded as the stable
`List.insertionSort` with `b.2 ≤ a.2` — then clamped to 0 from below
(`Int.toNat` is exactly `if s < 0 { 0usize } else { s as usize }`) and
normalized by `max_raw_score`. -/
def alphabet_calculate_scores (text : List Char) : Option Outcome :=
  (alphabet_raw_scores text).map (fun scores =>
    let max_raw_score := (text.filter (fun ch => !is_stop_char ch)).length
    let sorted := scores.insertionSort (fun a b => b.2 ≤ a.2)
    let raw_scores := sorted.map (fun p => (p.1, p.2.toNat))
    let normalized_scores :=
      raw_scores.map (fun p => (p.1, normalize_raw p.2 max_raw_score))
    { max_raw_score := max_raw_score, raw_scores := raw_scores,
      normalized_scores := normalized_scores })

/-- The outcome that `alphabet_calculate_scores` in fact always produces: the
scorer only requests the six languages of `candidate_langs`, and each of them
has an alphabet entry, so the `none` arm of `get_lang_chars` is never hit. -/
def alphabet_outcome (text : List Char) : Outcome :=
  let scores := candidate_langs.map
    (fun lang => (lang, alphabet_raw_score ((get_lang_chars lang).getD []) text))
  let max_raw_score := (text.filter (fun ch => !is_stop_char ch)).length
  let sorted := scores.insertionSort (fun a b => b.2 ≤ a.2)
  let raw_scores := sorted.map (fun p => (p.1, p.2.toNat))
  let normalized_scores :=
    raw_scores.map (fun p => (p.1, normalize_raw p.2 max_raw_score))
  { max_raw_score := max_raw_score, raw_scores := raw_scores,
    normalized_scores := normalized_scores }

theorem sorted_desc_head (a b : Lang × ℚ) (t : List (Lang × ℚ))
    (h : sorted_desc (a :: b :: t) = true) : b.2 ≤ a.2 := by
  simp only [sorted_desc, Bool.and_eq_true, decide_eq_true_eq] at h
  exact h.1

theorem detect_cons_cons (l1 l2 : Lang) (s1 s2 : ℚ) (rest : List (Lang × ℚ))
    (tc : Nat) :
    detect_lang_based_on_script ((l1, s1) :: (l2, s2) :: rest) tc =
      (if s1 = 0 then none
       else if s2 = 0 then some (l1, if s1 / 500 > 1 then 1 else s1 / 500)
       else if tc = 0 then some (l1, 0)
       else some (l1,
         if (s1 - s2) / s2 > 12 / (tc : ℚ) + 1 / 20 then 1
         else ((s1 - s2) / s2) / (12 / (tc : ℚ) + 1 / 20))) := rfl

/-- Claim C8: for every normalized-scores list of length at least 2 whose top score
is exactly 0, the confidence estimator returns `none`: no language and no
confidence.  (Sortedness of the list is not even needed for this branch.) -/
theorem detect_none_of_top_score_zero (l1 l2 : Lang) (s2 : ℚ)
    (rest : List (Lang × ℚ)) (tc : Nat) :
    detect_lang_based_on_script ((l1, 0) :: (l2, s2) :: rest) tc = none := by
  simp [detect_lang_based_on_script]

/-- Claim C2: for every descending-sorted normalized-scores list of length at least
2 with second score positive and positive trigram count, the estimator returns
the first-ranked language with confidence given exactly by the rate formula
with the constants `12.0` (here `12`) and `0.05` (here `1 / 20`):
`rate = (score1 - score2) / score2`,
`confident_rate = 12 / trigram_count + 1 / 20`, confidence `1` when
`rate > confident_rate` and `rate / confident_rate` otherwise. -/
theorem confidence_formula_pos_scores (l1 l2 : Lang) (s1 s2 : ℚ)
    (rest : List (Lang × ℚ)) (tc : Nat)
    (hs : sorted_desc ((l1, s1) :: (l2, s2) :: rest) = true)
    (h2 : 0 < s2) (htc : 0 < tc) :
    detect_lang_based_on_script ((l1, s1) :: (l2, s2) :: rest) tc =
      some (l1,
        if (s1 - s2) / s2 > 12 / (tc : ℚ) + 1 / 20 then 1
        else ((s1 - s2) / s2) / (12 / (tc : ℚ) + 1 / 20)) := by
  have h21 : s2 ≤ s1 := sorted_desc_head _ _ _ hs
  have h1 : s1 ≠ 0 := ne_of_gt (lt_of_lt_of_le h2 h21)
  have h2' : s2 ≠ 0 := ne_of_gt h2
  have htc' : tc ≠ 0 := Nat.pos_iff_ne_zero.mp htc
  rw [detect_cons_cons, if_neg h1, if_neg h2', if_neg htc']

/-- Witness for C2 on a concrete input: with scores `1/2 > 1/4` and
`trigram_count = 100` the rate is `1`, the threshold is `17/100`, and the
confidence saturates to `1`. -/
theorem confidence_formula_pos_scores_witness :
    detect_lang_based_on_script [(Lang.Rus, 1/2), (Lang.Ukr, 1/4)] 100 =
      some (Lang.Rus, 1) := by
  have h := confidence_formula_pos_scores Lang.Rus Lang.Ukr (1/2) (1/4) [] 100
    (by norm_num [sorted_desc]) (by norm_num) (by norm_num)
  rw [h]; norm_num

/-- Claim C3: for every descending-sorted normalized-scores list of length at least
2 whose top score is positive and whose second score is exactly 0, the
estimator returns the first-ranked language with confidence exactly
`min 1 (score1 / 500)`. -/
theorem confidence_score2_zero_formula (l1 l2 : Lang) (s1 : ℚ)
    (rest : List (Lang × ℚ)) (tc : Nat)
    (hs : sorted_desc ((l1, s1) :: (l2, 0) :: rest) = true)
    (h1 : 0 < s1) :
    detect_lang_based_on_script ((l1, s1) :: (l2, 0) :: rest) tc =
      some (l1, min 1 (s1 / 500)) := by
  have h1' : s1 ≠ 0 := ne_of_gt h1
  rw [detect_cons_cons, if_neg h1', if_pos rfl]
  have hmin : (if s1 / 500 > 1 then (1 : ℚ) else s1 / 500) = min 1 (s1 / 500) := by
    rcases le_or_lt (s1 / 500) 1 with h | h
    · rw [if_neg (not_lt.mpr h), min_eq_right h]
    · rw [if_pos h, min_eq_left (le_of_lt h)]
  rw [hmin]

/-- Witness for C3 on the spec's own example: `score1 = 250`, second score 0,
confidence `250 / 500 = 1/2`. -/
theorem confidence_score2_zero_formula_witness :
    detect_lang_based_on_script [(Lang.Rus, 250), (Lang.Ukr, 0)] 7 =
      some (Lang.Rus, 1/2) := by
  have h := confidence_score2_zero_formula Lang.Rus Lang.Ukr 250 [] 7
    (by norm_num [sorted_desc]) (by norm_num)
  rw [h]; norm_num

/-- Claim C6: for every descending-sorted normalized-scores list of length at least
2 with both top scores positive but `trigram_count = 0`, the estimator does
not fault on `12.0 / 0.0` (in `f64` that division yields `+inf`, not a trap)
and returns the first language with confidence `0`. -/
theorem confidence_zero_of_trigram_count_zero (l1 l2 : Lang) (s1 s2 : ℚ)
    (rest : List (Lang × ℚ))
    (hs : sorted_desc ((l1, s1) :: (l2, s2) :: rest) = true)
    (h2 : 0 < s2) :
    detect_lang_based_on_script ((l1, s1) :: (l2, s2) :: rest) 0 =
      some (l1, 0) := by
  have h21 : s2 ≤ s1 := sorted_desc_head _ _ _ hs
  have h1 : s1 ≠ 0 := ne_of_gt (lt_of_lt_of_le h2 h21)
  have h2' : s2 ≠ 0 := ne_of_gt h2
  rw [detect_cons_cons, if_neg h1, if_neg h2', if_pos rfl]

/-- Witness for C6 on a concrete input: scores `1/2 > 1/4`, trigram count 0,
confidence 0. -/
theorem confidence_zero_of_trigram_count_zero_witness :
    detect_lang_based_on_script [(Lang.Rus, 1/2), (Lang.Ukr, 1/4)] 0 =
      some (Lang.Rus, 0) :=
  confidence_zero_of_trigram_count_zero Lang.Rus Lang.Ukr (1/2) (1/4) []
    (by norm_num [sorted_desc]) (by norm_num)

/-- Claim C1, amended: for every non-empty descending-sorted normalized-scores
list all of whose scores lie in [0,1] — the range the scoring methods
normalize into — and every trigram count, whenever the estimator returns a
result its confidence lies in [0,1].  (For an arbitrary descending list, as
the claim literally quantifies, this fails; see the counterexample with a
score of 2.) -/
theorem confidence_mem_unit_of_scores_mem_unit (scores : List (Lang × ℚ))
    (tc : Nat) (l : Lang) (c : ℚ)
    (hs : sorted_desc scores = true)
    (hb : ∀ p ∈ scores, 0 ≤ p.2 ∧ p.2 ≤ 1)
    (h : detect_lang_based_on_script scores tc = some (l, c)) :
    0 ≤ c ∧ c ≤ 1 := by
  match scores with
  | [] => simp [detect_lang_based_on_script] at h
  | [p] =>
    have hp : p = (l, c) := by
      simpa [detect_lang_based_on_script] using h
    have hbp := hb p (List.mem_singleton_self p)
    rw [hp] at hbp
    exact hbp
  | (l1, s1) :: (l2, s2) :: rest =>
    rw [detect_cons_cons] at h
    have hb1 := hb (l1, s1) (by simp)
    have hb2 := hb (l2, s2) (by simp)
    by_cases h1 : s1 = 0
    · rw [if_pos h1] at h; exact absurd h (by simp)
    rw [if_neg h1] at h
    by_cases h2 : s2 = 0
    · rw [if_pos h2] at h
      simp only [Option.some.injEq, Prod.mk.injEq] at h
      obtain ⟨-, hc⟩ := h
      subst hc
      constructor
      · split_ifs with hh
        · norm_num
        · exact div_nonneg hb1.1 (by norm_num)
      · split_ifs with hh
        · exact le_refl 1
        · exact not_lt.mp hh
    · rw [if_neg h2] at h
      by_cases htc : tc = 0
      · rw [if_pos htc] at h
        simp only [Option.some.injEq, Prod.mk.injEq] at h
        obtain ⟨-, hc⟩ := h
        subst hc
        exact ⟨le_refl 0, by norm_num⟩
      · rw [if_neg htc] at h
        simp only [Option.some.injEq, Prod.mk.injEq] at h
        obtain ⟨-, hc⟩ := h
        subst hc
        have hs2pos : 0 < s2 := lt_of_le_of_ne hb2.1 (Ne.symm h2)
        have h21 : s2 ≤ s1 := sorted_desc_head _ _ _ hs
        have hrate : 0 ≤ (s1 - s2) / s2 :=
          div_nonneg (sub_nonneg.mpr h21) hs2pos.le
        have hcr : 0 < 12 / (tc : ℚ) + 1 / 20 := by positivity
        constructor
        · split_ifs with hh
          · norm_num
          · exact div_nonneg hrate hcr.le
        · split_ifs with hh
          · norm_num
          · exact (div_le_one hcr).mpr (not_lt.mp hh)

/-- Counterexample to C1 as stated: the singleton list `[(Rus, 2)]` is sorted
descending, yet the estimator returns its score `2` verbatim as the
confidence, and `2` is not within `[0,1]`. -/
theorem confidence_mem_unit_cex :
    ¬ (∀ (scores : List (Lang × ℚ)) (tc : Nat) (l : Lang) (c : ℚ),
        sorted_desc scores = true →
        detect_lang_based_on_script scores tc = some (l, c) →
        0 ≤ c ∧ c ≤ 1) := by
  intro hclaim
  have h := hclaim [(Lang.Rus, 2)] 0 Lang.Rus 2 rfl rfl
  norm_num at h

/-- Witness for C1 (amended) on a concrete input: scores `1/2 > 1/4`,
trigram count 100, confidence 1, which is within `[0,1]`. -/
theorem confidence_mem_unit_witness :
    detect_lang_based_on_script [(Lang.Rus, 1/2), (Lang.Ukr, 1/4)] 100 =
        some (Lang.Rus, 1) ∧
      (0 ≤ (1 : ℚ) ∧ (1 : ℚ) ≤ 1) :=
  ⟨by rw [detect_cons_cons]; norm_num,
    confidence_mem_unit_of_scores_mem_unit [(Lang.Rus, 1/2), (Lang.Ukr, 1/4)]
      100 Lang.Rus 1 (by norm_num [sorted_desc])
      (by intro p hp; fin_cases hp <;> norm_num)
      (by rw [detect_cons_cons]; norm_num)⟩

theorem clamp_one_mono (u v : ℚ) (huv : u ≤ v) :
    (if u > 1 then (1 : ℚ) else u) ≤ (if v > 1 then 1 else v) := by
  split_ifs with h1 h2 h2
  · exact le_refl 1
  · exact absurd (lt_of_lt_of_le h1 huv) h2
  · exact not_lt.mp h1
  · exact huv

theorem clamped_ratio_mono (x y t : ℚ) (ht : 0 < t) (hxy : x ≤ y) :
    (if x > t then (1 : ℚ) else x / t) ≤ (if y > t then 1 else y / t) := by
  split_ifs with h1 h2 h2
  · exact le_refl 1
  · exact absurd (lt_of_lt_of_le h1 hxy) h2
  · exact (div_le_one ht).mpr (not_lt.mp h1)
  · gcongr

/-- Claim C7, amended: holding the trigram count, the shared second score and the
rest of the list fixed, enlarging the gap between the top two scores never
strictly decreases the confidence — provided the shared second score is
nonnegative, the range the scoring methods normalize into.  (With a negative
second score, as the claim's literal quantification over arbitrary
descending-sorted lists allows, the rate formula divides by the negative
`score2` and monotonicity fails; see the counterexample.) -/
theorem confidence_monotone_in_gap (l1 l2 : Lang) (rest : List (Lang × ℚ))
    (s2 g g' : ℚ) (tc : Nat) (a a' : Lang) (c c' : ℚ)
    (hs2 : 0 ≤ s2) (hgg : g ≤ g')
    (hsort : sorted_desc ((l1, s2 + g) :: (l2, s2) :: rest) = true)
    (hsort' : sorted_desc ((l1, s2 + g') :: (l2, s2) :: rest) = true)
    (h : detect_lang_based_on_script ((l1, s2 + g) :: (l2, s2) :: rest) tc =
      some (a, c))
    (h' : detect_lang_based_on_script ((l1, s2 + g') :: (l2, s2) :: rest) tc =
      some (a', c')) :
    c ≤ c' := by
  have hg : 0 ≤ g := by
    have := sorted_desc_head _ _ _ hsort
    simpa using this
  have hs1 : 0 ≤ s2 + g := add_nonneg hs2 hg
  have hs11 : s2 + g ≤ s2 + g' := add_le_add_left hgg s2
  rw [detect_cons_cons] at h h'
  by_cases h1 : s2 + g = 0
  · rw [if_pos h1] at h; exact absurd h (by simp)
  rw [if_neg h1] at h
  have h1pos : 0 < s2 + g := lt_of_le_of_ne hs1 (Ne.symm h1)
  have h1' : s2 + g' ≠ 0 := ne_of_gt (lt_of_lt_of_le h1pos hs11)
  rw [if_neg h1'] at h'
  by_cases h2 : s2 = 0
  · rw [if_pos h2] at h h'
    simp only [Option.some.injEq, Prod.mk.injEq] at h h'
    obtain ⟨-, hc⟩ := h
    obtain ⟨-, hc'⟩ := h'
    subst hc; subst hc'
    exact clamp_one_mono _ _ (by gcongr)
  · rw [if_neg h2] at h h'
    have hs2pos : 0 < s2 := lt_of_le_of_ne hs2 (Ne.symm h2)
    by_cases htc : tc = 0
    · rw [if_pos htc] at h h'
      simp only [Option.some.injEq, Prod.mk.injEq] at h h'
      obtain ⟨-, hc⟩ := h
      obtain ⟨-, hc'⟩ := h'
      subst hc; subst hc'
      exact le_refl 0
    · rw [if_neg htc] at h h'
      simp only [Option.some.injEq, Prod.mk.injEq] at h h'
      obtain ⟨-, hc⟩ := h
      obtain ⟨-, hc'⟩ := h'
      subst hc; subst hc'
      have hcr : 0 < 12 / (tc : ℚ) + 1 / 20 := by positivity
      exact clamped_ratio_mono _ _ _ hcr (by gcongr)

/-- Counterexample to C7 as stated: with the shared second score `-1` (a
descending-sorted list need not have nonnegative scores), trigram count 12 and
gaps `0` and `1/2`, the smaller gap yields confidence `0` while the larger gap
yields confidence `-10/21 < 0`: a larger gap with a strictly smaller
confidence. -/
theorem confidence_monotone_in_gap_cex :
    ¬ (∀ (l1 l2 : Lang) (rest : List (Lang × ℚ)) (s2 g g' : ℚ) (tc : Nat)
         (a a' : Lang) (c c' : ℚ),
        g ≤ g' →
        sorted_desc ((l1, s2 + g) :: (l2, s2) :: rest) = true →
        sorted_desc ((l1, s2 + g') :: (l2, s2) :: rest) = true →
        detect_lang_based_on_script ((l1, s2 + g) :: (l2, s2) :: rest) tc =
          some (a, c) →
        detect_lang_based_on_script ((l1, s2 + g') :: (l2, s2) :: rest) tc =
          some (a', c') →
        c ≤ c') := by
  intro hclaim
  have h := hclaim Lang.Rus Lang.Ukr [] (-1) 0 (1/2) 12 Lang.Rus Lang.Rus
    0 (-10/21)
    (by norm_num) (by norm_num [sorted_desc]) (by norm_num [sorted_desc])
    (by rw [detect_cons_cons]; norm_num) (by rw [detect_cons_cons]; norm_num)
  norm_num at h

/-- Witness for C7 (amended) on concrete inputs: second score `1/4`, gaps `0`
and `1/4`, trigram count 100; confidences 0 and 1, and indeed `0 ≤ 1`. -/
theorem confidence_monotone_in_gap_witness :
    detect_lang_based_on_script [(Lang.Rus, 1/4 + 0), (Lang.Ukr, 1/4)] 100 =
        some (Lang.Rus, 0) ∧
      detect_lang_based_on_script [(Lang.Rus, 1/4 + 1/4), (Lang.Ukr, 1/4)] 100 =
        some (Lang.Rus, 1) ∧
      (0 : ℚ) ≤ 1 :=
  ⟨by rw [detect_cons_cons]; norm_num, by rw [detect_cons_cons]; norm_num,
    confidence_monotone_in_gap Lang.Rus Lang.Ukr [] (1/4) 0 (1/4) 100
      Lang.Rus Lang.Rus 0 1 (by norm_num) (by norm_num)
      (by norm_num [sorted_desc]) (by norm_num [sorted_desc])
      (by rw [detect_cons_cons]; norm_num) (by rw [detect_cons_cons]; norm_num)⟩

theorem alphabet_calculate_scores_eq (text : List Char) :
    alphabet_calculate_scores text = some (alphabet_outcome text) := rfl

/-- Claim C10: the panic branch of `get_lang_chars` is unreachable through the
public scoring function: `alphabet_calculate_scores` only ever requests the
six fixed Cyrillic languages, each of which has an alphabet entry, so for
every text it produces an outcome (never the `none` that models the
panic). -/
theorem alphabet_calculate_scores_total (text : List Char) :
    (alphabet_calculate_scores text).isSome = true := by
  rw [alphabet_calculate_scores_eq]; rfl

/-- Claim C4 evaluated at the failing input (code bug): on the empty text the scorer
does yield `max_raw_score = 0`, but every normalized score is the non-finite
`0.0 / 0.0` (NaN, modelled as `none`) rather than the `0` the claim and the
spec prescribe — the code divides by `max_raw_score` unconditionally. -/
theorem alphabet_scores_empty_text_eval :
    alphabet_calculate_scores [] =
      some { max_raw_score := 0,
             raw_scores := [(Lang.Rus, 0), (Lang.Ukr, 0), (Lang.Bul, 0),
               (Lang.Bel, 0), (Lang.Mkd, 0), (Lang.Srp, 0)],
             normalized_scores := [(Lang.Rus, none), (Lang.Ukr, none),
               (Lang.Bul, none), (Lang.Bel, none), (Lang.Mkd, none),
               (Lang.Srp, none)] } := rfl

/-- Claim C5 refuted at a failing input (code bug): on the all-stop text of one
space, every normalized score the scorer emits is NaN (`none`), not a finite
value in `[0,1]`; the claimed invariant holds only when the text has a
non-stop character (see `alphabet_normalized_mem_unit_of_pos`). -/
theorem alphabet_scores_unit_range_cex :
    ¬ (∀ (text : List Char) (o : Outcome),
        alphabet_calculate_scores text = some o →
        ∀ p ∈ o.normalized_scores, ∃ v, p.2 = some v ∧ 0 ≤ v ∧ v ≤ 1) := by
  intro hclaim
  have h := hclaim [' '] (alphabet_outcome [' ']) rfl (Lang.Rus, none)
    (by decide)
  obtain ⟨v, hv, -⟩ := h
  exact Option.noConfusion hv

theorem alphabet_raw_score_le (alphabet : List Char) (text : List Char) :
    alphabet_raw_score alphabet text ≤
      ((text.filter (fun ch => !is_stop_char ch)).length : Int) := by
  have key : ∀ (t : List Char) (s : Int),
      t.foldl (fun score ch =>
        if is_stop_char ch then score
        else if alphabet.contains ch then score + 1 else score - 1) s ≤
      s + ((t.filter (fun ch => !is_stop_char ch)).length : Int) := by
    intro t
    induction t with
    | nil => intro s; simp
    | cons ch t ih =>
      intro s
      by_cases hst : is_stop_char ch
      · simpa [hst] using ih s
      · by_cases hin : alphabet.contains ch
        · have h := ih (s + 1)
          simp only [List.foldl_cons, List.filter_cons, hst, hin,
            Bool.not_false, if_true, Bool.false_eq_true, if_false,
            List.length_cons]
          push_cast
          linarith
        · have h := ih (s - 1)
          simp only [List.foldl_cons, List.filter_cons, hst, hin,
            Bool.not_false, if_true, Bool.false_eq_true, if_false,
            List.length_cons]
          push_cast
          linarith
  simpa [alphabet_raw_score] using key text 0

theorem alphabet_raw_score_all_in (alphabet : List Char) (text : List Char)
    (hstop : ∀ ch ∈ text, is_stop_char ch = false)
    (hin : ∀ ch ∈ text, alphabet.contains ch = true) :
    alphabet_raw_score alphabet text = (text.length : Int) := by
  have key : ∀ (t : List Char), (∀ ch ∈ t, is_stop_char ch = false) →
      (∀ ch ∈ t, alphabet.contains ch = true) → ∀ (s : Int),
      t.foldl (fun score ch =>
        if is_stop_char ch then score
        else if alphabet.contains ch then score + 1 else score - 1) s =
      s + (t.length : Int) := by
    intro t
    induction t with
    | nil => intro _ _ s; simp
    | cons ch t ih =>
      intro h1 h2 s
      have hch1 := h1 ch (List.mem_cons_self ch t)
      have hch2 := h2 ch (List.mem_cons_self ch t)
      simp only [List.foldl_cons, hch1, hch2, Bool.false_eq_true, if_false,
        if_true, List.length_cons]
      rw [ih (fun c hc => h1 c (List.mem_cons_of_mem ch hc))
        (fun c hc => h2 c (List.mem_cons_of_mem ch hc)) (s + 1)]
      push_cast
      ring
  simpa [alphabet_raw_score] using key text hstop hin 0

theorem alphabet_raw_score_all_out (alphabet : List Char) (text : List Char)
    (hstop : ∀ ch ∈ text, is_stop_char ch = false)
    (hout : ∀ ch ∈ text, alphabet.contains ch = false) :
    alphabet_raw_score alphabet text = -(text.length : Int) := by
  have key : ∀ (t : List Char), (∀ ch ∈ t, is_stop_char ch = false) →
      (∀ ch ∈ t, alphabet.contains ch = false) → ∀ (s : Int),
      t.foldl (fun score ch =>
        if is_stop_char ch then score
        else if alphabet.contains ch then score + 1 else score - 1) s =
      s - (t.length : Int) := by
    intro t
    induction t with
    | nil => intro _ _ s; simp
    | cons ch t ih =>
      intro h1 h2 s
      have hch1 := h1 ch (List.mem_cons_self ch t)
      have hch2 := h2 ch (List.mem_cons_self ch t)
      simp only [List.foldl_cons, hch1, hch2, Bool.false_eq_true, if_false,
        List.length_cons]
      rw [ih (fun c hc => h1 c (List.mem_cons_of_mem ch hc))
        (fun c hc => h2 c (List.mem_cons_of_mem ch hc)) (s - 1)]
      push_cast
      ring
  simpa [alphabet_raw_score] using key text hstop hout 0

theorem alphabet_outcome_max (text : List Char) :
    (alphabet_outcome text).max_raw_score =
      (text.filter (fun ch => !is_stop_char ch)).length := rfl

theorem alphabet_outcome_raw (text : List Char) :
    (alphabet_outcome text).raw_scores =
      ((candidate_langs.map (fun lang =>
          (lang, alphabet_raw_score ((get_lang_chars lang).getD []) text))).insertionSort
        (fun a b => b.2 ≤ a.2)).map (fun p => (p.1, p.2.toNat)) := rfl

theorem alphabet_outcome_norm (text : List Char) :
    (alphabet_outcome text).normalized_scores =
      (alphabet_outcome text).raw_scores.map
        (fun p => (p.1, normalize_raw p.2 (alphabet_outcome text).max_raw_score)) :=
  rfl

/-- The invariant behind C5 away from the degenerate `max_raw_score = 0`
case: when the text has at least one non-stop character, every normalized
score the alphabet scorer emits is a finite value within `[0,1]`. -/
theorem alphabet_normalized_mem_unit_of_pos (text : List Char) (o : Outcome)
    (h : alphabet_calculate_scores text = some o)
    (hpos : 0 < o.max_raw_score) :
    ∀ p ∈ o.normalized_scores, ∃ v, p.2 = some v ∧ 0 ≤ v ∧ v ≤ 1 := by
  have ho : o = alphabet_outcome text := by
    rw [alphabet_calculate_scores_eq] at h
    exact (Option.some.inj h).symm
  subst ho
  intro p hp
  rw [alphabet_outcome_norm] at hp
  obtain ⟨q, hq, rfl⟩ := List.mem_map.mp hp
  have hbound : q.2 ≤ (alphabet_outcome text).max_raw_score := by
    rw [alphabet_outcome_raw] at hq
    obtain ⟨r, hr, rfl⟩ := List.mem_map.mp hq
    have hr' := (List.perm_insertionSort _ _).mem_iff.mp hr
    obtain ⟨lang, hlang, rfl⟩ := List.mem_map.mp hr'
    rw [alphabet_outcome_max]
    exact Int.toNat_le.mpr (alphabet_raw_score_le _ _)
  have hmaxne : (alphabet_outcome text).max_raw_score ≠ 0 :=
    Nat.pos_iff_ne_zero.mp hpos
  have hmaxpos : (0 : ℚ) < ((alphabet_outcome text).max_raw_score : ℚ) :=
    Nat.cast_pos.mpr hpos
  refine ⟨(q.2 : ℚ) / ((alphabet_outcome text).max_raw_score : ℚ), ?_, ?_, ?_⟩
  · simp [normalize_raw, hmaxne]
  · positivity
  · rw [div_le_one hmaxpos]
    exact_mod_cast hbound

/-- Claim C9: for a non-empty text of non-stop characters that all belong to the
alphabet of the candidate language `L` and to no other candidate's alphabet,
the scorer gives `L` the raw score `max_raw_score` (normalized score 1) and
every other candidate the clamped raw score 0 (normalized score 0). -/
theorem alphabet_scores_exclusive_text (text : List Char) (L : Lang)
    (hmem : L ∈ candidate_langs) (hne : text ≠ [])
    (hstop : ∀ ch ∈ text, is_stop_char ch = false)
    (hin : ∀ ch ∈ text, ((get_lang_chars L).getD []).contains ch = true)
    (hout : ∀ l ∈ candidate_langs, l ≠ L →
      ∀ ch ∈ text, ((get_lang_chars l).getD []).contains ch = false) :
    ∃ o, alphabet_calculate_scores text = some o ∧
      o.max_raw_score = text.length ∧
      (L, o.max_raw_score) ∈ o.raw_scores ∧
      (L, some (1 : ℚ)) ∈ o.normalized_scores ∧
      (∀ p ∈ o.raw_scores, p.1 ≠ L → p.2 = 0) ∧
      (∀ p ∈ o.normalized_scores, p.1 ≠ L → p.2 = some (0 : ℚ)) := by
  have hfilter : text.filter (fun ch => !is_stop_char ch) = text :=
    List.filter_eq_self.mpr (fun a ha => by simp [hstop a ha])
  have hlen : text.length ≠ 0 := fun h0 => hne (List.length_eq_zero.mp h0)
  have hmax : (alphabet_outcome text).max_raw_score = text.length := by
    rw [alphabet_outcome_max, hfilter]
  have hscoreL :
      alphabet_raw_score ((get_lang_chars L).getD []) text =
        (text.length : Int) :=
    alphabet_raw_score_all_in _ _ hstop hin
  have hscoreO : ∀ l ∈ candidate_langs, l ≠ L →
      alphabet_raw_score ((get_lang_chars l).getD []) text =
        -(text.length : Int) :=
    fun l hl hl' => alphabet_raw_score_all_out _ _ hstop (hout l hl hl')
  have hrawL : (L, text.length) ∈ (alphabet_outcome text).raw_scores := by
    rw [alphabet_outcome_raw]
    refine List.mem_map.mpr ⟨(L, (text.length : Int)), ?_, by simp⟩
    refine (List.perm_insertionSort _ _).mem_iff.mpr ?_
    rw [← hscoreL]
    exact List.mem_map_of_mem _ hmem
  have hrawO : ∀ p ∈ (alphabet_outcome text).raw_scores, p.1 ≠ L → p.2 = 0 := by
    intro p hp hp1
    rw [alphabet_outcome_raw] at hp
    obtain ⟨q, hq, rfl⟩ := List.mem_map.mp hp
    have hq' := (List.perm_insertionSort _ _).mem_iff.mp hq
    obtain ⟨lang, hlang, rfl⟩ := List.mem_map.mp hq'
    have hsc := hscoreO lang hlang (by simpa using hp1)
    simp only [hsc]
    omega
  have hnormL : (L, some (1 : ℚ)) ∈ (alphabet_outcome text).normalized_scores := by
    rw [alphabet_outcome_norm]
    refine List.mem_map.mpr ⟨(L, text.length), hrawL, ?_⟩
    have h1 : ((text.length : ℚ)) / ((text.length : ℚ)) = 1 :=
      div_self (Nat.cast_ne_zero.mpr hlen)
    simp [normalize_raw, hmax, hlen, h1]
  have hnormO : ∀ p ∈ (alphabet_outcome text).normalized_scores,
      p.1 ≠ L → p.2 = some (0 : ℚ) := by
    intro p hp hp1
    rw [alphabet_outcome_norm] at hp
    obtain ⟨q, hq, rfl⟩ := List.mem_map.mp hp
    have hq2 : q.2 = 0 := hrawO q hq (by simpa using hp1)
    simp [hq2, normalize_raw, hmax, hlen]
  refine ⟨alphabet_outcome text, alphabet_calculate_scores_eq text, hmax, ?_,
    hnormL, hrawO, hnormO⟩
  rw [hmax]
  exact hrawL

/-- Witness for C9 on a concrete input: the single character `ї` is a
non-stop character belonging to the Ukrainian alphabet and to no other
candidate's alphabet, so Ukrainian gets raw score `max_raw_score = 1` and
normalized score 1, and every other candidate gets 0. -/
theorem alphabet_scores_exclusive_text_witness :
    ∃ o, alphabet_calculate_scores ['ї'] = some o ∧
      o.max_raw_score = (['ї'] : List Char).length ∧
      (Lang.Ukr, o.max_raw_score) ∈ o.raw_scores ∧
      (Lang.Ukr, some (1 : ℚ)) ∈ o.normalized_scores ∧
      (∀ p ∈ o.raw_scores, p.1 ≠ Lang.Ukr → p.2 = 0) ∧
      (∀ p ∈ o.normalized_scores, p.1 ≠ Lang.Ukr → p.2 = some (0 : ℚ)) :=
  alphabet_scores_exclusive_text ['ї'] Lang.Ukr (by decide) (by decide)
    (by decide) (by decide) (by decide)
